import Mathlib

/-
Shallow embedding of the napari-metadata reader module
(src/napari_metadata/_reader.py, vendored from napari-ome-zarr).

Modelling conventions:
- Python dictionaries are insertion-ordered association lists over string
  keys; the operations aget?, amem, aset, aappend mirror d[k], k in d,
  d[k] = v and d[k].append(v).
- Python values flowing through the display-metadata fields are embedded
  by the inductive type FVal; numbers inside scale/translation arrays are
  rationals.
- Operations that can raise an exception return Option (none = raised);
  the overall reader returns Except, since an uncaught exception aborts
  the run with no result list.
- The classes of the sibling module _model.py and the unit registries of
  _space_units.py/_time_units.py are not among the given sources; they are
  modelled from the specification and marked as such.
-/

namespace NapariMeta

/-- Modelled from the spec: the spatial unit registry of `_space_units.py`
(not among the given sources).  A closed enumeration of canonical spatial
units with a NONE sentinel (spec sections 4.1 and 3). -/
inductive SpaceUnits where
  | NONE
  | MICROMETER
  | MILLIMETER
  | METER
deriving DecidableEq, Repr

/-- Modelled from the spec: total resolution of a spatial unit name,
mapping recognized synonyms to one canonical value and any unrecognized or
absent name to the NONE sentinel; it never fails (spec section 4.1). -/
def SpaceUnits.from_name (s : String) : SpaceUnits :=
  if s = "micrometer" ∨ s = "µm" ∨ s = "um" ∨ s = "micron" then .MICROMETER
  else if s = "millimeter" ∨ s = "mm" then .MILLIMETER
  else if s = "meter" ∨ s = "m" then .METER
  else .NONE

/-- Modelled from the spec: the canonical name of a spatial unit, as used
by the unit-mismatch warning. -/
def SpaceUnits.toName : SpaceUnits → String
  | .NONE => "none"
  | .MICROMETER => "micrometer"
  | .MILLIMETER => "millimeter"
  | .METER => "meter"

/-- Modelled from the spec: the temporal unit registry of `_time_units.py`
(not among the given sources). -/
inductive TimeUnits where
  | NONE
  | SECOND
  | MILLISECOND
deriving DecidableEq, Repr

/-- Modelled from the spec: total resolution of a temporal unit name with a
NONE sentinel for unrecognized names. -/
def TimeUnits.from_name (s : String) : TimeUnits :=
  if s = "second" ∨ s = "s" ∨ s = "sec" then .SECOND
  else if s = "millisecond" ∨ s = "ms" then .MILLISECOND
  else .NONE

/-- Modelled from the spec: the canonical name of a temporal unit. -/
def TimeUnits.toName : TimeUnits → String
  | .NONE => "none"
  | .SECOND => "second"
  | .MILLISECOND => "millisecond"

/-- Modelled from the spec: a spatial axis value of `_model.py` (name plus
canonical spatial unit). -/
structure SpaceAxis where
  name : String
  unit : SpaceUnits
deriving DecidableEq, Repr

/-- Modelled from the spec: a temporal axis value of `_model.py`. -/
structure TimeAxis where
  name : String
  unit : TimeUnits
deriving DecidableEq, Repr

/-- Modelled from the spec: an Axis is either a SpaceAxis or a TimeAxis;
channel axes are never materialized as Axis values. -/
inductive Axis where
  | space (a : SpaceAxis)
  | time (a : TimeAxis)
deriving DecidableEq, Repr

/-- Python `isinstance(axis, SpaceAxis)`. -/
def Axis.isSpace : Axis → Bool
  | .space _ => true
  | .time _ => false

/-- Modelled from the spec: `get_unit_name` of `_model.py`, the canonical
name of the axis's unit. -/
def Axis.get_unit_name : Axis → String
  | .space a => a.unit.toName
  | .time a => a.unit.toName

/-- The in-place assignment `axis.unit = SpaceUnits.NONE` performed by
get_axes on each spatial axis of its result list. -/
def Axis.forceNoneUnit : Axis → Axis
  | .space a => .space ⟨a.name, SpaceUnits.NONE⟩
  | .time a => .time a

/-- Modelled from the spec: OriginalMetadata of `_model.py`: the calibration
snapshot (axes, optional name, optional scale/translate tuples) as it
appeared in the source dataset. -/
structure OriginalMetadata where
  axes : List Axis
  name : Option String
  scale : Option (List ℚ)
  translate : Option (List ℚ)
deriving DecidableEq, Repr

/-- Modelled from the spec: ExtraMetadata of `_model.py`: an independently
copied axes list plus the OriginalMetadata snapshot. -/
structure ExtraMetadata where
  axes : List Axis
  original : OriginalMetadata
deriving DecidableEq, Repr

/-- Modelled from the spec: the reserved well-known key of `_model.py` under
which ExtraMetadata is nested inside the metadata display field; its exact
string value is not among the given sources and is immaterial here. -/
def EXTRA_METADATA_KEY : String := "napari_metadata_extras"

/-- A Python value as it occurs in the display-metadata fields of a node:
None, booleans, integers, numbers, strings, lists, string-keyed
dictionaries, tuples of numbers (as produced by transform_scale), Colormap
objects (`vcolormap` wraps the value the object was constructed from) and
ExtraMetadata payloads. -/
inductive FVal where
  | vnone
  | vbool (b : Bool)
  | vint (n : Int)
  | vnum (q : ℚ)
  | vstr (s : String)
  | vlist (xs : List FVal)
  | vdict (d : List (String × FVal))
  | vqtuple (q : List ℚ)
  | vcolormap (spec : FVal)
  | vextras (e : ExtraMetadata)

/-- Python dictionary lookup `d.get(k)` on an insertion-ordered association
list: the value at the first matching key. -/
def aget? {α : Type} (d : List (String × α)) (k : String) : Option α :=
  (d.find? (fun p => p.1 == k)).map (fun p => p.2)

/-- Python `k in d`. -/
def amem {α : Type} (d : List (String × α)) (k : String) : Bool :=
  d.any (fun p => p.1 == k)

/-- Python `d[k] = v`: replaces the value at an existing key, keeping its
position, otherwise appends a new entry at the end. -/
def aset {α : Type} (d : List (String × α)) (k : String) (v : α) :
    List (String × α) :=
  if amem d k then d.map (fun p => if p.1 == k then (k, v) else p)
  else d ++ [(k, v)]

/-- Python `d[k].append(v)` as used by transform_properties; at every call
site the key is present (it was inserted by the key-collection loop or is
the synthetic index key), so the KeyError branch is unreachable and the
update is modelled as a pure in-place append. -/
def aappend {α : Type} (d : List (String × List α)) (k : String) (v : α) :
    List (String × List α) :=
  d.map (fun p => if p.1 == k then (p.1, p.2 ++ [v]) else p)

/-- A display-metadata mapping (both the node's raw fields and the output
metadata built per node). -/
abbrev MDict := List (String × FVal)

/-- The recognized display fields (METADATA_KEYS of the source). -/
def METADATA_KEYS : List String :=
  ["name", "visible", "contrast_limits", "colormap", "color", "metadata"]

/-- Python truthiness of an FVal, as used by the walrus test
`if name := node.metadata.get("name")`. -/
def FVal.truthy : FVal → Bool
  | .vnone => false
  | .vbool b => b
  | .vint n => n != 0
  | .vnum q => q != 0
  | .vstr s => s != ""
  | .vlist xs => !xs.isEmpty
  | .vdict d => !d.isEmpty
  | .vqtuple q => !q.isEmpty
  | .vcolormap _ => true
  | .vextras _ => true

/-- Python `v[0]` as used when copying a display field of a single-channel
node: the head of a list or tuple, the first character of a string;
everything else raises (string-keyed dictionaries have no key 0). -/
def FVal.sub0 : FVal → Option FVal
  | .vlist (x :: _) => some x
  | .vstr s =>
    match s.data with
    | [] => none
    | c :: _ => some (.vstr (String.mk [c]))
  | .vqtuple (q :: _) => some (.vnum q)
  | _ => none

/-- Python `m[k] = v` on a value expected to be a dictionary; any other
value raises. -/
def fvalSetKey (m : FVal) (k : String) (v : FVal) : Option FVal :=
  match m with
  | .vdict d => some (.vdict (aset d k v))
  | _ => none

/-- One axis descriptor of the node metadata's axes entry, a dictionary of
which the source reads the keys name, unit and type (none = key absent). -/
structure AxisDesc where
  name : Option String
  unit : Option String
  type : Option String
deriving DecidableEq, Repr

/-- One entry of a coordinate-transformation level, a dictionary of which
the source reads the keys scale and translation. -/
structure Transf where
  scale : Option (List ℚ)
  translation : Option (List ℚ)
deriving DecidableEq, Repr

/-- The per-label property mapping passed to transform_properties: label
identifier to property-name to value, in dictionary iteration order. -/
abbrev PropsDict := List (Int × List (String × FVal))

/-- The node metadata mapping, restricted to the keys the source reads:
axes, coordinateTransformations, properties, and the recognized display
fields (held in `fields`); an absent optional key is none. -/
structure NodeMeta where
  axes : Option (List AxisDesc)
  coordinateTransformations : Option (List (List Transf))
  fields : MDict
  properties : Option PropsDict

/-- One pyramid level: only its shape is relevant to the reader. -/
structure Arr where
  shape : List Nat
deriving DecidableEq, Repr

/-- A node yielded by the dataset-access collaborator: pyramid data (none =
Python None), a metadata mapping, and the labels predicate
(`node.load(Label)`). -/
structure Node where
  data : Option (List Arr)
  metadata : NodeMeta
  isLabel : Bool

/-- Node data after the single-level squeeze: either still a list of levels
or the sole level. -/
inductive DataVal where
  | levels (ls : List Arr)
  | single (a : Arr)

/-- Python `props_dict.get(key, None)`. -/
def pget (pd : List (String × FVal)) (k : String) : FVal :=
  (aget? pd k).getD .vnone

/-- Embedding of transform_properties: pivot a per-label property mapping
into per-property value sequences, aligned by label, with a synthetic
index sequence of label identifiers; None input gives None. -/
def transform_properties (props : Option PropsDict) :
    Option (List (String × List FVal)) :=
  match props with
  | none => none
  | some ps =>
    let properties : List (String × List FVal) :=
      ps.foldl (fun acc lp => lp.2.foldl (fun acc2 kv => aset acc2 kv.1 []) acc) []
    let keys := properties.map (fun p => p.1)
    let properties := aset properties "index" []
    let properties := ps.foldl (fun acc lp =>
      let acc := aappend acc "index" (FVal.vint lp.1)
      keys.foldl (fun a k => aappend a k (pget lp.2 k)) acc) properties
    some properties

/-- Python `xs.pop(i)`: removes the element at index i in place; an index
out of range raises IndexError (none). -/
def popAt {α : Type} (xs : List α) (i : Nat) : Option (List α) :=
  if i < xs.length then some (xs.eraseIdx i) else none

/-- One iteration of the loop of transform_scale over the level-0 transform
entries: handle the scale key, then the translation key.  With a channel
axis the channel entry is popped from the array in place (mutating the node
metadata's own array), and the popped array is stored as a tuple in the
output metadata, overwriting any earlier entry's value. -/
def scaleStep (ch : Option Nat) (t : Transf) (md : MDict) :
    Option (Transf × MDict) := do
  let (t1, md1) ←
    match t.scale with
    | some s =>
      match ch with
      | some i => do
        let s' ← popAt s i
        pure ({ t with scale := some s' }, aset md "scale" (FVal.vqtuple s'))
      | none => pure (t, aset md "scale" (FVal.vqtuple s))
    | none => pure (t, md)
  match t1.translation with
  | some tr =>
    match ch with
    | some i => do
      let tr' ← popAt tr i
      pure ({ t1 with translation := some tr' },
            aset md1 "translate" (FVal.vqtuple tr'))
    | none => pure (t1, aset md1 "translate" (FVal.vqtuple tr))
  | none => pure (t1, md1)

/-- The loop of transform_scale over all level-0 transform entries,
returning the updated entries and output metadata. -/
def scaleLoop (ch : Option Nat) :
    List Transf → MDict → Option (List Transf × MDict)
  | [], md => some ([], md)
  | t :: rest, md => do
    let (t1, md1) ← scaleStep ch t md
    let (rest1, md2) ← scaleLoop ch rest md1
    pure (t1 :: rest1, md2)

/-- Embedding of transform_scale.  The source mutates both arguments: the
channel entry is popped in place out of the node metadata's scale and
translation arrays, and the resulting tuples are stored into the output
metadata; the updated node metadata is returned explicitly.  A present but
empty coordinateTransformations sequence raises (IndexError on `[0]`). -/
def transform_scale (nm : NodeMeta) (metadata : MDict) (ch : Option Nat) :
    Option (NodeMeta × MDict) :=
  match nm.coordinateTransformations with
  | none => some (nm, metadata)
  | some [] => none
  | some (level0 :: rest) => do
    let (level0', md') ← scaleLoop ch level0 metadata
    pure ({ nm with coordinateTransformations := some (level0' :: rest) }, md')

/-- Embedding of get_axis: a required name (KeyError when absent, modelled
as none at the outer level), a unit defaulting to the string none, and a
three-way branch on the type: time axes, channel axes (returning Python
None, the inner none), and everything else (absent or unrecognized type
included) a space axis. -/
def get_axis (a : AxisDesc) : Option (Option Axis) :=
  match a.name with
  | none => none
  | some nm =>
    let unit := a.unit.getD "none"
    match a.type with
    | some "time" => some (some (Axis.time ⟨nm, TimeUnits.from_name unit⟩))
    | some "channel" => some none
    | _ => some (some (Axis.space ⟨nm, SpaceUnits.from_name unit⟩))

/-- Embedding of get_axes: classify every descriptor, drop channel markers,
and when the set of spatial unit names has more than one element warn with
that set and reassign every spatial axis's unit to NONE in place.  The
Python set of unit names is modelled as the deduplicated name list, and the
emitted warning is returned as the second component (none = no warning). -/
def get_axes (metadata : NodeMeta) :
    Option (List Axis × Option (List String)) := do
  let descs ← metadata.axes
  let opts ← descs.mapM get_axis
  let axes := opts.reduceOption
  let space_axes := axes.filter Axis.isSpace
  let space_units := (space_axes.map Axis.get_unit_name).dedup
  if space_units.length > 1 then
    pure (axes.map Axis.forceNoneUnit, some space_units)
  else
    pure (axes, none)

/-- Lines 164-170 of the source: channel-axis detection.  The comprehension
`[axis["type"] for axis in node.metadata["axes"]]` raises when the axes key
is absent or when any descriptor lacks a type key; the except clause logs
at error severity and re-raises, so the failure is surfaced as an error. -/
def detectChannelAxis (nm : NodeMeta) : Except Unit (Option Nat) :=
  match nm.axes with
  | none => .error ()
  | some descs =>
    match descs.mapM (fun a => a.type) with
    | none => .error ()
    | some ch_types => .ok (ch_types.findIdx? (fun t => t == "channel"))

/-- The node metadata shapes on which channel-axis detection raises: an
absent axes key, or some descriptor without a type key. -/
def axisReadBroken (nm : NodeMeta) : Bool :=
  match nm.axes with
  | none => true
  | some descs => descs.any (fun a => a.type.isNone)

/-- numpy.squeeze with an explicit axis: removes that axis, raising unless
its extent is exactly 1. -/
def npSqueeze (a : Arr) (axis : Nat) : Option Arr :=
  match a.shape[axis]? with
  | some 1 => some ⟨a.shape.eraseIdx axis⟩
  | _ => none

/-- Lines 178-181 of the source: ensure that name is a list when single
channel.  The walrus test uses Python truthiness, so an absent or falsy
name is left alone; the replacement writes into the node metadata. -/
def nameWrap (nm : NodeMeta) (ch : Option Nat) : NodeMeta :=
  match aget? nm.fields "name" with
  | some v =>
    if v.truthy then
      match ch, v with
      | none, .vstr s =>
        { nm with fields := aset nm.fields "name" (.vlist [.vstr s]) }
      | _, _ => nm
    else nm
  | none => nm

/-- The colormap shim (lines 202-206): an entry that is not already a
Colormap object is replaced by one constructed from it. -/
def convertColormapEntry (v : FVal) : FVal :=
  match v with
  | .vcolormap s => .vcolormap s
  | v => .vcolormap v

/-- Lines 202-206 of the source: replace non-Colormap colormap entries in
place inside the node metadata's colormap list.  An absent colormap key
defaults to an empty list (no iteration); a present non-list value raises
when the loop assigns into it, modelled as none (dictionary-valued
colormaps, which Python would tolerate by inserting integer keys, are
outside this model of string-keyed mappings). -/
def colormapShim (nm : NodeMeta) : Option NodeMeta :=
  match aget? nm.fields "colormap" with
  | none => some nm
  | some (.vlist xs) =>
    some { nm with
           fields := aset nm.fields "colormap"
             (.vlist (xs.map convertColormapEntry)) }
  | some _ => none

/-- Verbatim copy of every recognized display field present in the node
metadata into the output metadata (labels branch, lines 185-187, and
multi-channel image branch, lines 211-213). -/
def copyFieldsVerbatim (nmFields md : MDict) : MDict :=
  METADATA_KEYS.foldl (fun acc x =>
    match aget? nmFields x with
    | some v => aset acc x v
    | none => acc) md

/-- The single-channel image branch (lines 217-222): copy the first element
`node.metadata[x][0]` of each present display field, silently omitting the
field when the subscript raises. -/
def copyFieldsFirst (nmFields md : MDict) : MDict :=
  METADATA_KEYS.foldl (fun acc x =>
    match aget? nmFields x with
    | some v =>
      match v.sub0 with
      | some v0 => aset acc x v0
      | none => acc
    | none => acc) md

/-- Coercion of a display name value into the Optional string name slot of
the OriginalMetadata dataclass. -/
def fvalName : FVal → Option String
  | .vstr s => some s
  | _ => none

/-- Embedding of make_extras: read the scale/translate tuples out of the
output metadata when present, snapshot an OriginalMetadata, and return the
ExtraMetadata payload; the deep copies of the axes list are structural in
this model. -/
def make_extras (metadata : MDict) (axes : List Axis) (name : FVal) :
    ExtraMetadata :=
  let scale : Option (List ℚ) :=
    match aget? metadata "scale" with
    | some (.vqtuple s) => some s
    | _ => none
  let translate : Option (List ℚ) :=
    match aget? metadata "translate" with
    | some (.vqtuple t) => some t
    | _ => none
  ⟨axes, ⟨axes, fvalName name, scale, translate⟩⟩

/-- Final state of the per-channel metadata list built at lines 241-252 of
the source.  The Python expression `[deepcopy(meta)] * n_channels`
evaluates the deep copy once and repeats a reference to that single
dictionary, so a write through any position is visible at every position;
this aliasing is modelled by the `shared` constructor.  A value that was
already a list keeps structurally independent elements (`elems`). -/
inductive ChannelMeta where
  | shared (d : FVal) (n : Nat)
  | elems (xs : List FVal)

/-- The per-channel metadata list as it reads back element by element
(the value of the metadata display field). -/
def ChannelMeta.render : ChannelMeta → FVal
  | .shared d n => .vlist (List.replicate n d)
  | .elems xs => .vlist xs

/-- Python `metadata["metadata"][i]`: the mapping seen at channel i. -/
def ChannelMeta.read? : ChannelMeta → Nat → Option FVal
  | .shared d n, i => if i < n then some d else none
  | .elems xs, i => xs[i]?

/-- Python `metadata["metadata"][i][k] = v`: in the shared case the write
is visible at every channel, because all positions alias one dictionary. -/
def ChannelMeta.writeAt (cm : ChannelMeta) (i : Nat) (k : String) (v : FVal) :
    Option ChannelMeta :=
  match cm with
  | .shared d n =>
    if i < n then do
      let d' ← fvalSetKey d k v
      pure (ChannelMeta.shared d' n)
    else none
  | .elems xs =>
    match xs[i]? with
    | some m => do
      let m' ← fvalSetKey m k v
      pure (ChannelMeta.elems (xs.set i m'))
    | none => none

/-- The zip loop of lines 247-252 in the broadcast (shared) case: every
iteration assigns the reserved key on the one shared dictionary, so later
channels overwrite earlier ones. -/
def extrasLoopShared (mk : FVal → FVal) : FVal → List FVal → Option FVal
  | d, [] => some d
  | d, n :: ns => do
    let d' ← fvalSetKey d EXTRA_METADATA_KEY (mk n)
    extrasLoopShared mk d' ns

/-- The zip loop of lines 247-252 when the metadata display field was
already a per-channel list: each element is updated independently; the zip
stops at the shorter of the two sequences, leaving trailing elements
untouched. -/
def extrasLoopElems (mk : FVal → FVal) : List FVal → List FVal → Option (List FVal)
  | _, [] => some []
  | [], ms => some ms
  | n :: ns, m :: ms => do
    let m' ← fvalSetKey m EXTRA_METADATA_KEY (mk n)
    let ms' ← extrasLoopElems mk ns ms
    pure (m' :: ms')

/-- Lines 237-252 of the source: multi-channel metadata normalization.
The channel count is read off the data shape; a non-list metadata display
value is broadcast by `[deepcopy(meta)] * n_channels` (one deep copy
aliased n_channels times, the shared case); a non-list name is broadcast
into a list of that length; then the zip loop stores one ExtraMetadata
under the reserved key through each position of the per-channel list. -/
def multiChannelExtras (dataV : DataVal) (ch : Nat) (axes : List Axis)
    (metadata : MDict) : Option (MDict × ChannelMeta) := do
  let arr0 ←
    match dataV with
    | .levels ls => ls[0]?
    | .single a => some a
  let n_channels ← arr0.shape[ch]?
  let meta := (aget? metadata "metadata").getD (.vdict [])
  let cm : ChannelMeta :=
    match meta with
    | .vlist xs => .elems xs
    | m => .shared m n_channels
  let metadata1 :=
    match meta with
    | .vlist _ => metadata
    | m => aset metadata "metadata" (ChannelMeta.render (.shared m n_channels))
  let nameV := (aget? metadata1 "name").getD .vnone
  let names : List FVal :=
    match nameV with
    | .vlist xs => xs
    | v => List.replicate n_channels v
  let mk := fun (n : FVal) => FVal.vextras (make_extras metadata1 axes n)
  let cm' ←
    match cm with
    | .shared d n => do
      let d' ← extrasLoopShared mk d (names.take n)
      pure (ChannelMeta.shared d' n)
    | .elems xs => do
      let xs' ← extrasLoopElems mk names xs
      pure (ChannelMeta.elems xs')
  pure (aset metadata1 "metadata" cm'.render, cm')

/-- Lines 228-236 of the source: single-channel extras attachment: ensure a
metadata mapping exists, then store one ExtraMetadata under the reserved
key inside it (raising if the present metadata display value is not a
mapping). -/
def singleChannelExtras (axes : List Axis) (metadata : MDict) :
    Option MDict := do
  let metadata1 :=
    if amem metadata "metadata" then metadata
    else aset metadata "metadata" (.vdict [])
  let name := (aget? metadata1 "name").getD .vnone
  let mv := (aget? metadata1 "metadata").getD .vnone
  let mv' ← fvalSetKey mv EXTRA_METADATA_KEY
    (.vextras (make_extras metadata1 axes name))
  pure (aset metadata1 "metadata" mv')

/-- The pivoted properties mapping rendered back into a metadata value. -/
def propsToFVal (p : List (String × List FVal)) : FVal :=
  .vdict (p.map (fun kv => (kv.1, FVal.vlist kv.2)))

/-- A layer-data tuple: data, display metadata, layer kind. -/
abbrev LayerData := DataVal × MDict × String

/-- Lines 224-252 of the source: attach the extra metadata, per node when
single channel and per channel otherwise.  The warning channel of get_axes
goes to the warnings sink and is not part of the returned value. -/
def attachExtras (nm : NodeMeta) (channel_axis : Option Nat) (dataV : DataVal)
    (metadata : MDict) (layer_type : String) : Option LayerData := do
  let (axes, _warn) ← get_axes nm
  match channel_axis with
  | none => do
    let md' ← singleChannelExtras axes metadata
    pure (dataV, md', layer_type)
  | some ch => do
    let (md', _) ← multiChannelExtras dataV ch axes metadata
    pure (dataV, md', layer_type)

/-- The body of the per-node loop after channel-axis detection succeeded
(lines 172-254): geometry extraction, single-level squeeze, name wrapping,
the labels/image branch with its field copies, and extras attachment. -/
def processBody (node : Node) (ls : List Arr) (channel_axis : Option Nat) :
    Option LayerData := do
  let (nm1, md1) ← transform_scale node.metadata [] channel_axis
  let data1 : DataVal :=
    match ls with
    | [x] => .single x
    | _ => .levels ls
  let nm2 := nameWrap nm1 channel_axis
  if node.isLabel then
    let md2 := copyFieldsVerbatim nm2.fields md1
    let data2 : DataVal ←
      match channel_axis with
      | some ch => do
        let sq ← ls.mapM (fun lv => npSqueeze lv ch)
        pure (DataVal.levels sq)
      | none => pure data1
    let md3 :=
      match transform_properties nm2.properties with
      | some p => aset md2 "properties" (propsToFVal p)
      | none => md2
    attachExtras nm2 channel_axis data2 md3 "labels"
  else
    let nm3 ← colormapShim nm2
    let md2 :=
      match channel_axis with
      | some ch =>
        copyFieldsVerbatim nm3.fields (aset md1 "channel_axis" (.vint (ch : Int)))
      | none => copyFieldsFirst nm3.fields md1
    attachExtras nm3 channel_axis data1 md2 "image"

/-- Log events emitted by the per-node loop. -/
inductive LogEvent where
  | skipNonData
  | transforming
  | nodeMetadata
  | errorReadingAxes
  | transformed
deriving DecidableEq, Repr

/-- Severity of a log event; only the axis-read failure is logged at error
severity, everything else is debug. -/
inductive LogLevel where
  | debug
  | error
deriving DecidableEq, Repr

/-- The severity of each log event. -/
def LogEvent.level : LogEvent → LogLevel
  | .errorReadingAxes => .error
  | _ => .debug

/-- Outcome of one iteration of the per-node loop. -/
inductive NodeRes where
  | skipped
  | emitted (ld : LayerData)
  | raised

/-- One iteration of the per-node loop of the reader function f (lines
153-256): skip and log nodes without data; log and re-raise when the axis
schema cannot be read; otherwise run the body, emitting a layer-data tuple
on success and raising on any uncaught failure. -/
def processNode (node : Node) : List LogEvent × NodeRes :=
  match node.data with
  | none => ([.skipNonData], .skipped)
  | some ls =>
    if ls.length < 1 then ([.skipNonData], .skipped)
    else
      match detectChannelAxis node.metadata with
      | .error _ =>
        ([.transforming, .nodeMetadata, .errorReadingAxes], .raised)
      | .ok channel_axis =>
        match processBody node ls channel_axis with
        | some ld =>
          ([.transforming, .nodeMetadata, .transformed], .emitted ld)
        | none => ([.transforming, .nodeMetadata], .raised)

/-- The fold of the reader function f over the node sequence, accumulating
logs and results; a raise aborts with the logs emitted so far and no
result list. -/
def transformGo : List Node → List LogEvent → List LayerData →
    List LogEvent × Except Unit (List LayerData)
  | [], logs, results => (logs, .ok results)
  | node :: rest, logs, results =>
    match processNode node with
    | (nlogs, .skipped) => transformGo rest (logs ++ nlogs) results
    | (nlogs, .emitted ld) => transformGo rest (logs ++ nlogs) (results ++ [ld])
    | (nlogs, .raised) => (logs ++ nlogs, .error ())

/-- The reader function returned by transform, applied to a node sequence:
an ordered list of layer-data tuples, or an error when some node's
processing raises, in which case no result list reaches the caller. -/
def transform (nodes : List Node) :
    List LogEvent × Except Unit (List LayerData) :=
  transformGo nodes [] []

/-- Python truthiness of the skip test `data is None or len(data) < 1`. -/
def Node.hasData (node : Node) : Bool :=
  match node.data with
  | none => false
  | some ls => decide (1 ≤ ls.length)

/- Derived lemmas about the association-list dictionary model. -/

theorem aget?_cons {α : Type} (p : String × α) (d : List (String × α)) (k : String) :
    aget? (p :: d) k = if p.1 = k then some p.2 else aget? d k := by
  by_cases h : p.1 = k <;> simp [aget?, List.find?_cons, h]

theorem amem_cons {α : Type} (p : String × α) (d : List (String × α)) (k : String) :
    amem (p :: d) k = (p.1 == k || amem d k) := by
  simp [amem]

theorem aget?_append {α : Type} (d1 d2 : List (String × α)) (k : String) :
    aget? (d1 ++ d2) k = (aget? d1 k).or (aget? d2 k) := by
  simp [aget?, List.find?_append]
  cases List.find? (fun p => p.1 == k) d1 <;> simp

theorem amem_false_aget? {α : Type} (d : List (String × α)) (k : String)
    (h : amem d k = false) : aget? d k = none := by
  simp [amem, List.any_eq_false] at h
  simp [aget?, List.find?_eq_none]
  intro p hp
  simpa using h p hp

theorem aget?_mapReplace_self {α : Type} (d : List (String × α)) (k : String) (v : α) :
    aget? (d.map (fun p => if p.1 = k then (k, v) else p)) k
      = if amem d k then some v else none := by
  induction d with
  | nil => simp [aget?, amem]
  | cons p rest ih =>
    rw [List.map_cons]
    by_cases h : p.1 = k <;> simp [aget?_cons, amem_cons, h, ih]

theorem aget?_mapReplace_ne {α : Type} (d : List (String × α)) (k k' : String) (v : α)
    (h : k' ≠ k) :
    aget? (d.map (fun p => if p.1 = k then (k, v) else p)) k' = aget? d k' := by
  induction d with
  | nil => simp
  | cons p rest ih =>
    rw [List.map_cons]
    by_cases hp : p.1 = k
    · have : k ≠ k' := fun hh => h hh.symm
      simp [aget?_cons, hp, this, ih]
    · by_cases hk : p.1 = k' <;> simp [aget?_cons, hp, hk, h, ih]

theorem aget?_aset_self {α : Type} (d : List (String × α)) (k : String) (v : α) :
    aget? (aset d k v) k = some v := by
  unfold aset
  cases h : amem d k with
  | true =>
    simp only [if_true, beq_iff_eq]
    rw [aget?_mapReplace_self, h]
    simp
  | false =>
    simp only [Bool.false_eq_true, if_false]
    rw [aget?_append, amem_false_aget? d k h]
    simp [aget?_cons]

theorem aget?_aset_ne {α : Type} (d : List (String × α)) (k k' : String) (v : α)
    (h : k' ≠ k) : aget? (aset d k v) k' = aget? d k' := by
  unfold aset
  cases hm : amem d k with
  | true =>
    simp only [if_true, beq_iff_eq]
    rw [aget?_mapReplace_ne _ _ _ _ h]
  | false =>
    simp only [Bool.false_eq_true, if_false]
    rw [aget?_append]
    have h1 : aget? [(k, v)] k' = none := by
      have hne : k ≠ k' := fun hh => h hh.symm
      simp [aget?_cons, hne, aget?]
    rw [h1]
    cases aget? d k' <;> simp

theorem keys_aset {α : Type} (d : List (String × α)) (k : String) (v : α) :
    (aset d k v).map (fun p => p.1)
      = if amem d k then d.map (fun p => p.1) else d.map (fun p => p.1) ++ [k] := by
  unfold aset
  cases hm : amem d k with
  | true =>
    simp only [if_true, List.map_map]
    refine List.map_congr_left ?_
    intro p _
    by_cases h : p.1 = k <;> simp [h]
  | false => simp


/- Characterization of the transform_scale loop. -/

/-- The scale array whose tuple survives in the output metadata: every
scale-bearing level-0 entry overwrites the scale key, so the last one
wins. -/
def lastScale : List Transf → Option (List ℚ)
  | [] => none
  | t :: rest => (lastScale rest).orElse (fun _ => t.scale)

/-- The translation array whose tuple survives in the output metadata. -/
def lastTransl : List Transf → Option (List ℚ)
  | [] => none
  | t :: rest => (lastTransl rest).orElse (fun _ => t.translation)

/-- The in-place effect of transform_scale on one transform entry when the
channel axis is i: each present array loses its element at index i. -/
def popTransf (i : Nat) (t : Transf) : Transf :=
  ⟨t.scale.map (fun s => s.eraseIdx i), t.translation.map (fun s => s.eraseIdx i)⟩


theorem scaleStep_some_spec (i : Nat) (t : Transf) (md : MDict)
    (hts : ∀ s, t.scale = some s → i < s.length)
    (htt : ∀ s, t.translation = some s → i < s.length) :
    ∃ md1, scaleStep (some i) t md = some (popTransf i t, md1) ∧
      aget? md1 "scale"
        = (t.scale.map (fun s => FVal.vqtuple (s.eraseIdx i))).or (aget? md "scale") ∧
      aget? md1 "translate"
        = (t.translation.map (fun s => FVal.vqtuple (s.eraseIdx i))).or (aget? md "translate") ∧
      ∀ k, k ≠ "scale" → k ≠ "translate" → aget? md1 k = aget? md k := by
  obtain ⟨ts, tt⟩ := t
  cases ts with
  | some s =>
    have hlen : i < s.length := hts s rfl
    cases tt with
    | some tr =>
      have hlent : i < tr.length := htt tr rfl
      refine ⟨aset (aset md "scale" (FVal.vqtuple (s.eraseIdx i))) "translate"
        (FVal.vqtuple (tr.eraseIdx i)), ?_, ?_, ?_, ?_⟩
      · simp [scaleStep, popAt, hlen, hlent, popTransf]
      · rw [aget?_aset_ne _ _ _ _ (by simp), aget?_aset_self]
        simp
      · rw [aget?_aset_self]
        simp
      · intro k h1 h2
        rw [aget?_aset_ne _ _ _ _ h2, aget?_aset_ne _ _ _ _ h1]
    | none =>
      refine ⟨aset md "scale" (FVal.vqtuple (s.eraseIdx i)), ?_, ?_, ?_, ?_⟩
      · simp [scaleStep, popAt, hlen, popTransf]
      · rw [aget?_aset_self]
        simp
      · rw [aget?_aset_ne _ _ _ _ (by simp)]
        simp
      · intro k h1 h2
        rw [aget?_aset_ne _ _ _ _ h1]
  | none =>
    cases tt with
    | some tr =>
      have hlent : i < tr.length := htt tr rfl
      refine ⟨aset md "translate" (FVal.vqtuple (tr.eraseIdx i)), ?_, ?_, ?_, ?_⟩
      · simp [scaleStep, popAt, hlent, popTransf]
      · rw [aget?_aset_ne _ _ _ _ (by simp)]
        simp
      · rw [aget?_aset_self]
        simp
      · intro k h1 h2
        rw [aget?_aset_ne _ _ _ _ h2]
    | none =>
      refine ⟨md, ?_, ?_, ?_, fun k _ _ => rfl⟩
      · simp [scaleStep, popTransf]
      · simp
      · simp

theorem scaleLoop_some_spec (i : Nat) (l0 : List Transf) (md : MDict)
    (hs : ∀ t ∈ l0, ∀ s, t.scale = some s → i < s.length)
    (ht : ∀ t ∈ l0, ∀ s, t.translation = some s → i < s.length) :
    ∃ md', scaleLoop (some i) l0 md = some (l0.map (popTransf i), md') ∧
      aget? md' "scale"
        = ((lastScale l0).map (fun s => FVal.vqtuple (s.eraseIdx i))).or (aget? md "scale") ∧
      aget? md' "translate"
        = ((lastTransl l0).map (fun s => FVal.vqtuple (s.eraseIdx i))).or (aget? md "translate") ∧
      ∀ k, k ≠ "scale" → k ≠ "translate" → aget? md' k = aget? md k := by
  induction l0 generalizing md with
  | nil =>
    exact ⟨md, by simp [scaleLoop], by simp [lastScale], by simp [lastTransl],
      fun k _ _ => rfl⟩
  | cons t rest ih =>
    obtain ⟨md1, hmd1, hg1, hg2, hg3⟩ :=
      scaleStep_some_spec i t md (fun s h => hs t (by simp) s h)
        (fun s h => ht t (by simp) s h)
    obtain ⟨md2, hmd2, hh1, hh2, hh3⟩ :=
      ih md1 (fun t' h' s h => hs t' (by simp [h']) s h)
        (fun t' h' s h => ht t' (by simp [h']) s h)
    refine ⟨md2, ?_, ?_, ?_, ?_⟩
    · simp [scaleLoop, hmd1, hmd2]
    · rw [hh1, hg1, lastScale]
      cases lastScale rest <;> simp
    · rw [hh2, hg2, lastTransl]
      cases lastTransl rest <;> simp
    · intro k h1 h2
      rw [hh3 k h1 h2, hg3 k h1 h2]

theorem scaleLoop_none_spec (l0 : List Transf) (md : MDict) :
    ∃ md', scaleLoop none l0 md = some (l0, md') ∧
      aget? md' "scale" = ((lastScale l0).map FVal.vqtuple).or (aget? md "scale") ∧
      aget? md' "translate" = ((lastTransl l0).map FVal.vqtuple).or (aget? md "translate") ∧
      ∀ k, k ≠ "scale" → k ≠ "translate" → aget? md' k = aget? md k := by
  induction l0 generalizing md with
  | nil =>
    exact ⟨md, by simp [scaleLoop], by simp [lastScale], by simp [lastTransl],
      fun k _ _ => rfl⟩
  | cons t rest ih =>
    have hstep : ∃ md1, scaleStep none t md = some (t, md1) ∧
        aget? md1 "scale" = (t.scale.map FVal.vqtuple).or (aget? md "scale") ∧
        aget? md1 "translate" = (t.translation.map FVal.vqtuple).or (aget? md "translate") ∧
        ∀ k, k ≠ "scale" → k ≠ "translate" → aget? md1 k = aget? md k := by
      obtain ⟨ts, tt⟩ := t
      cases ts with
      | some s =>
        cases tt with
        | some tr =>
          refine ⟨aset (aset md "scale" (FVal.vqtuple s)) "translate" (FVal.vqtuple tr),
            ?_, ?_, ?_, ?_⟩
          · simp [scaleStep]
          · rw [aget?_aset_ne _ _ _ _ (by simp), aget?_aset_self]
            simp
          · rw [aget?_aset_self]
            simp
          · intro k h1 h2
            rw [aget?_aset_ne _ _ _ _ h2, aget?_aset_ne _ _ _ _ h1]
        | none =>
          refine ⟨aset md "scale" (FVal.vqtuple s), ?_, ?_, ?_, ?_⟩
          · simp [scaleStep]
          · rw [aget?_aset_self]
            simp
          · rw [aget?_aset_ne _ _ _ _ (by simp)]
            simp
          · intro k h1 h2
            rw [aget?_aset_ne _ _ _ _ h1]
      | none =>
        cases tt with
        | some tr =>
          refine ⟨aset md "translate" (FVal.vqtuple tr), ?_, ?_, ?_, ?_⟩
          · simp [scaleStep]
          · rw [aget?_aset_ne _ _ _ _ (by simp)]
            simp
          · rw [aget?_aset_self]
            simp
          · intro k h1 h2
            rw [aget?_aset_ne _ _ _ _ h2]
        | none =>
          exact ⟨md, by simp [scaleStep], by simp, by simp, fun k _ _ => rfl⟩
    obtain ⟨md1, hmd1, hg1, hg2, hg3⟩ := hstep
    obtain ⟨md2, hmd2, hh1, hh2, hh3⟩ := ih md1
    refine ⟨md2, ?_, ?_, ?_, ?_⟩
    · simp [scaleLoop, hmd1, hmd2]
    · rw [hh1, hg1, lastScale]
      cases lastScale rest <;> simp
    · rw [hh2, hg2, lastTransl]
      cases lastTransl rest <;> simp
    · intro k h1 h2
      rw [hh3 k h1 h2, hg3 k h1 h2]


/- The properties pivot: key collection, column-state shape, and the
characterization of transform_properties. -/

/-- Key-collection order of the first loop of transform_properties: the
union of the per-label property names in first-occurrence order. -/
def unionKeysInner (acc : List String) (pd : List (String × FVal)) : List String :=
  pd.foldl (fun a kv => if kv.1 ∈ a then a else a ++ [kv.1]) acc

def unionKeys (ps : PropsDict) : List String :=
  ps.foldl (fun acc lp => unionKeysInner acc lp.2) []

/-- Shape of the properties dictionary during the main pivot loop: one
column per collected key, plus the synthetic index column at the end. -/
def colState (ks : List String) (g : String → List FVal) (idx : List FVal) :
    List (String × List FVal) :=
  (ks.map fun k => (k, g k)) ++ [("index", idx)]

theorem colState_congr (ks : List String) (g1 g2 : String → List FVal)
    (idx1 idx2 : List FVal) (hg : ∀ k ∈ ks, g1 k = g2 k) (hi : idx1 = idx2) :
    colState ks g1 idx1 = colState ks g2 idx2 := by
  unfold colState
  rw [hi, List.map_congr_left (fun k hk => by rw [hg k hk])]

theorem amem_map_keyfun (ks : List String) (g : String → List FVal) (k0 : String) :
    amem (ks.map fun k => (k, g k)) k0 = decide (k0 ∈ ks) := by
  induction ks with
  | nil => rfl
  | cons k ksr ih =>
    rw [List.map_cons, amem_cons, ih]
    by_cases h : k = k0
    · simp [h]
    · simp [h, Ne.symm h]

theorem aget?_map_keyfun (ks : List String) (g : String → List FVal) (k0 : String) :
    aget? (ks.map fun k => (k, g k)) k0
      = if k0 ∈ ks then some (g k0) else none := by
  induction ks with
  | nil => rfl
  | cons k ksr ih =>
    rw [List.map_cons, aget?_cons]
    by_cases h : k = k0
    · subst h
      simp
    · rw [ih]
      by_cases h2 : k0 ∈ ksr <;> simp [h, h2, Ne.symm h]

theorem firstLoopInner (pd : List (String × FVal)) :
    ∀ ks : List String,
      pd.foldl (fun acc2 kv => aset acc2 kv.1 ([] : List FVal))
          (ks.map fun k => (k, ([] : List FVal)))
        = (unionKeysInner ks pd).map (fun k => (k, ([] : List FVal))) := by
  induction pd with
  | nil => intro ks; rfl
  | cons kv pdr ih =>
    intro ks
    rw [List.foldl_cons, unionKeysInner, List.foldl_cons]
    have hstep : aset (ks.map fun k => (k, ([] : List FVal))) kv.1 []
        = ((if kv.1 ∈ ks then ks else ks ++ [kv.1]).map
            fun k => (k, ([] : List FVal))) := by
      unfold aset
      rw [amem_map_keyfun]
      by_cases h : kv.1 ∈ ks
      · rw [if_pos (by simp [h]), if_pos h, List.map_map]
        refine List.map_congr_left ?_
        intro k _
        by_cases hk : k = kv.1 <;> simp [Function.comp, hk]
      · rw [if_neg (by simp [h]), if_neg h]
        simp
    rw [hstep]
    exact ih _

theorem firstLoopOuter (ps : PropsDict) :
    ∀ ks : List String,
      ps.foldl (fun acc lp => lp.2.foldl (fun acc2 kv => aset acc2 kv.1 []) acc)
          (ks.map fun k => (k, ([] : List FVal)))
        = (ps.foldl (fun acc lp => unionKeysInner acc lp.2) ks).map
            (fun k => (k, ([] : List FVal))) := by
  induction ps with
  | nil => intro ks; rfl
  | cons lp psr ih =>
    intro ks
    rw [List.foldl_cons, List.foldl_cons, firstLoopInner]
    exact ih _

theorem unionKeysInner_nodup (pd : List (String × FVal)) :
    ∀ acc : List String, acc.Nodup → (unionKeysInner acc pd).Nodup := by
  induction pd with
  | nil => intro acc h; exact h
  | cons kv pdr ih =>
    intro acc h
    rw [unionKeysInner, List.foldl_cons]
    refine ih _ ?_
    by_cases hc : kv.1 ∈ acc
    · simpa [hc] using h
    · simp only [hc, if_false]
      rw [List.nodup_append]
      exact ⟨h, List.nodup_singleton _, by simpa using hc⟩

theorem unionKeys_nodup (ps : PropsDict) : (unionKeys ps).Nodup := by
  rw [unionKeys]
  have : ∀ acc : List String, acc.Nodup →
      (ps.foldl (fun acc lp => unionKeysInner acc lp.2) acc).Nodup := by
    induction ps with
    | nil => intro acc h; exact h
    | cons lp psr ih =>
      intro acc h
      rw [List.foldl_cons]
      exact ih _ (unionKeysInner_nodup lp.2 acc h)
  exact this [] (List.nodup_nil)

theorem mem_unionKeysInner (pd : List (String × FVal)) :
    ∀ acc k, k ∈ unionKeysInner acc pd ↔ k ∈ acc ∨ k ∈ pd.map (fun kv => kv.1) := by
  induction pd with
  | nil => intro acc k; simp [unionKeysInner]
  | cons kv pdr ih =>
    intro acc k
    rw [unionKeysInner, List.foldl_cons]
    have : List.foldl (fun a kv => if kv.1 ∈ a then a else a ++ [kv.1])
        (if kv.1 ∈ acc then acc else acc ++ [kv.1]) pdr
        = unionKeysInner (if kv.1 ∈ acc then acc else acc ++ [kv.1]) pdr := rfl
    rw [this, ih]
    by_cases hc : kv.1 ∈ acc
    · simp only [hc, if_true, List.map_cons, List.mem_cons]
      constructor
      · rintro (h | h)
        · exact Or.inl h
        · exact Or.inr (Or.inr h)
      · rintro (h | h | h)
        · exact Or.inl h
        · exact Or.inl (h ▸ hc)
        · exact Or.inr h
    · simp only [hc, if_false, List.mem_append, List.mem_singleton, List.map_cons,
        List.mem_cons]
      tauto
  
theorem mem_unionKeys (ps : PropsDict) (k : String) :
    k ∈ unionKeys ps ↔ ∃ lp ∈ ps, k ∈ lp.2.map (fun kv => kv.1) := by
  rw [unionKeys]
  have : ∀ acc, k ∈ ps.foldl (fun acc lp => unionKeysInner acc lp.2) acc
      ↔ k ∈ acc ∨ ∃ lp ∈ ps, k ∈ lp.2.map (fun kv => kv.1) := by
    induction ps with
    | nil => intro acc; simp
    | cons lp psr ih =>
      intro acc
      rw [List.foldl_cons, ih, mem_unionKeysInner]
      simp only [List.mem_cons]
      constructor
      · rintro ((h | h) | ⟨lp', hlp', h⟩)
        · exact Or.inl h
        · exact Or.inr ⟨lp, Or.inl rfl, h⟩
        · exact Or.inr ⟨lp', Or.inr hlp', h⟩
      · rintro (h | ⟨lp', hlp' | hlp', h⟩)
        · exact Or.inl (Or.inl h)
        · exact Or.inl (Or.inr (hlp' ▸ h))
        · exact Or.inr ⟨lp', hlp', h⟩
  rw [this]
  simp

/-- aappend distributes over the column-state shape pointwise. -/
theorem aappend_colState (ks : List String) (g : String → List FVal)
    (idx : List FVal) (k : String) (v : FVal) :
    aappend (colState ks g idx) k v
      = colState ks (fun k' => if k' = k then g k' ++ [v] else g k')
          (if "index" = k then idx ++ [v] else idx) := by
  unfold aappend colState
  rw [List.map_append, List.map_map]
  congr 1
  · refine List.map_congr_left ?_
    intro k' _
    by_cases h : k' = k <;> simp [Function.comp, h]
  · by_cases h : ("index" : String) = k <;> simp [h]

theorem innerFold_colState (pd : List (String × FVal)) :
    ∀ (ks' ks : List String) (g : String → List FVal) (idx : List FVal),
      ks'.Nodup → "index" ∉ ks' →
      ks'.foldl (fun a k => aappend a k (pget pd k)) (colState ks g idx)
        = colState ks (fun k => if k ∈ ks' then g k ++ [pget pd k] else g k) idx := by
  intro ks'
  induction ks' with
  | nil =>
    intro ks g idx _ _
    rw [List.foldl_nil]
    exact (colState_congr _ _ _ _ _ (fun k _ => by simp) rfl).symm
  | cons k0 kst ih =>
    intro ks g idx hnd hidx
    rw [List.foldl_cons, aappend_colState,
      if_neg (fun hh => hidx (by simp [hh]))]
    rw [ih _ _ _ (List.Nodup.of_cons hnd) (fun hh => hidx (by simp [hh]))]
    refine colState_congr _ _ _ _ _ ?_ rfl
    intro k _
    have hk0 : k0 ∉ kst := (List.nodup_cons.mp hnd).1
    by_cases h1 : k = k0
    · subst h1
      simp [hk0]
    · by_cases h2 : k ∈ kst <;> simp [h1, h2]

theorem outerFold_colState (ps : PropsDict) :
    ∀ (ks : List String) (g : String → List FVal) (idx : List FVal),
      ks.Nodup → "index" ∉ ks →
      ps.foldl (fun acc lp =>
          ks.foldl (fun a k => aappend a k (pget lp.2 k))
            (aappend acc "index" (FVal.vint lp.1))) (colState ks g idx)
        = colState ks (fun k => g k ++ ps.map (fun lp => pget lp.2 k))
            (idx ++ ps.map (fun lp => FVal.vint lp.1)) := by
  induction ps with
  | nil =>
    intro ks g idx _ _
    rw [List.foldl_nil]
    exact (colState_congr _ _ _ _ _ (fun k _ => by simp) (by simp)).symm
  | cons lp psr ih =>
    intro ks g idx hnd hidx
    rw [List.foldl_cons, aappend_colState, if_pos rfl]
    have hg : (fun k' => if k' = "index" then g k' ++ [FVal.vint lp.1] else g k')
        = fun k' => if k' = "index" then g k' ++ [FVal.vint lp.1] else g k' := rfl
    rw [innerFold_colState lp.2 ks ks _ _ hnd hidx, ih ks _ _ hnd hidx]
    refine colState_congr _ _ _ _ _ ?_ (by simp)
    intro k hk
    have hne : k ≠ "index" := fun hh => hidx (hh ▸ hk)
    simp [hk, hne]

/-- Full characterization of transform_properties on the pivot-friendly
inputs: columns aligned per label, index column of label identifiers. -/
theorem transform_properties_spec (ps : PropsDict)
    (hidx : "index" ∉ unionKeys ps) :
    transform_properties (some ps)
      = some (colState (unionKeys ps)
          (fun k => ps.map (fun lp => pget lp.2 k))
          (ps.map (fun lp => FVal.vint lp.1))) := by
  have h1 : (ps.foldl (fun acc lp =>
        lp.2.foldl (fun acc2 kv => aset acc2 kv.1 []) acc)
        ([] : List (String × List FVal)))
      = (unionKeys ps).map (fun k => (k, ([] : List FVal))) := by
    have := firstLoopOuter ps []
    simpa [unionKeys] using this
  show some (ps.foldl (fun acc lp =>
      ((ps.foldl (fun acc lp => lp.2.foldl (fun acc2 kv => aset acc2 kv.1 []) acc)
          ([] : List (String × List FVal))).map (fun p => p.1)).foldl
        (fun a k => aappend a k (pget lp.2 k))
        (aappend acc "index" (FVal.vint lp.1)))
      (aset (ps.foldl (fun acc lp => lp.2.foldl (fun acc2 kv => aset acc2 kv.1 []) acc)
          ([] : List (String × List FVal))) "index" []))
    = some (colState (unionKeys ps)
        (fun k => ps.map (fun lp => pget lp.2 k))
        (ps.map (fun lp => FVal.vint lp.1)))
  rw [h1]
  have h2 : ((unionKeys ps).map (fun k => (k, ([] : List FVal)))).map (fun p => p.1)
      = unionKeys ps := by
    rw [List.map_map]
    exact List.map_id _
  rw [h2]
  have h3 : aset ((unionKeys ps).map (fun k => (k, ([] : List FVal)))) "index" []
      = colState (unionKeys ps) (fun _ => []) [] := by
    unfold aset colState
    rw [amem_map_keyfun]
    rw [if_neg (by simpa using hidx)]
  rw [h3]
  rw [outerFold_colState ps (unionKeys ps) _ _ (unionKeys_nodup ps) hidx]
  exact congrArg some (colState_congr _ _ _ _ _ (fun k _ => by simp) (by simp))

/- Column lookups and the settled pivot claims. -/

theorem aget?_colState_mem (ks : List String) (g : String → List FVal)
    (idx : List FVal) (k : String) (hk : k ∈ ks) :
    aget? (colState ks g idx) k = some (g k) := by
  unfold colState
  rw [aget?_append, aget?_map_keyfun]
  simp [hk]

theorem aget?_colState_index (ks : List String) (g : String → List FVal)
    (idx : List FVal) (h : "index" ∉ ks) :
    aget? (colState ks g idx) "index" = some idx := by
  unfold colState
  rw [aget?_append, aget?_map_keyfun]
  simp [h, aget?_cons, aget?]

theorem keys_colState (ks : List String) (g : String → List FVal) (idx : List FVal) :
    (colState ks g idx).map (fun p => p.1) = ks ++ ["index"] := by
  simp only [colState, List.map_append, List.map_map]
  rw [show List.map ((fun p => p.1) ∘ fun k => (k, g k)) ks = List.map id ks from rfl,
    List.map_id]
  rfl

theorem notmem_unionKeys_of_noindex (ps : PropsDict)
    (hidx : ∀ lp ∈ ps, ∀ kv ∈ lp.2, kv.1 ≠ "index") : "index" ∉ unionKeys ps := by
  intro hmem
  obtain ⟨lp, hlp, hk⟩ := (mem_unionKeys ps "index").mp hmem
  obtain ⟨kv, hkv, hfst⟩ := List.mem_map.mp hk
  exact hidx lp hlp kv hkv hfst

/-- Claim C6, amended: for every per-label property mapping in which no
property is itself named index, the pivot returns a mapping whose keys
are the union of property names plus the synthetic index key; each
property column has one entry per label in input order with None where a
label lacks it, and the index column lists the label identifiers; a None
input returns None.  (The unamended claim fails when a property is named
index, see the counterexample.) -/
theorem c6_pivot_amended (ps : PropsDict)
    (hidx : ∀ lp ∈ ps, ∀ kv ∈ lp.2, kv.1 ≠ "index") :
    transform_properties none = none ∧
    ∃ out, transform_properties (some ps) = some out ∧
      out.map (fun p => p.1) = unionKeys ps ++ ["index"] ∧
      (∀ k, k ∈ unionKeys ps ↔ ∃ lp ∈ ps, k ∈ lp.2.map (fun kv => kv.1)) ∧
      (∀ k ∈ unionKeys ps,
        aget? out k = some (ps.map (fun lp => pget lp.2 k)) ∧
        (ps.map (fun lp => pget lp.2 k)).length = ps.length) ∧
      (∀ (lp : Int × List (String × FVal)) (k : String),
        aget? lp.2 k = none → pget lp.2 k = FVal.vnone) ∧
      aget? out "index" = some (ps.map (fun lp => FVal.vint lp.1)) := by
  have hni : "index" ∉ unionKeys ps := notmem_unionKeys_of_noindex ps hidx
  refine ⟨rfl, _, transform_properties_spec ps hni, ?_, ?_, ?_, ?_, ?_⟩
  · exact keys_colState _ _ _
  · exact fun k => mem_unionKeys ps k
  · intro k hk
    exact ⟨aget?_colState_mem _ _ _ _ hk, by simp⟩
  · intro lp k h
    simp [pget, h]
  · exact aget?_colState_index _ _ _ hni

def c6ex : PropsDict := [(1, [("index", FVal.vint 5)])]

def c6w : PropsDict :=
  [(1, [("roiId", FVal.vint 10)]), (2, [("roiId", FVal.vint 11), ("shapeId", FVal.vint 99)])]



/- Driver-level lemmas: channel-axis detection failure, node skipping,
and composition of the per-node fold. -/

theorem mapM_type_none (descs : List AxisDesc) :
    descs.mapM (fun a => a.type) = none ↔ descs.any (fun a => a.type.isNone) = true := by
  induction descs with
  | nil => rw [List.mapM_nil]; simp
  | cons a rest ih =>
    rw [List.mapM_cons]
    cases ht : a.type with
    | none => simp [ht]
    | some t =>
      simp only [ht, Option.isNone_some, List.any_cons, Bool.false_or]
      rw [← ih]
      cases h : rest.mapM (fun a => a.type) <;> simp [h]

theorem detect_broken (nm : NodeMeta) (h : axisReadBroken nm = true) :
    detectChannelAxis nm = .error () := by
  cases ha : nm.axes with
  | none => simp only [detectChannelAxis, ha]
  | some descs =>
    have h2 : descs.any (fun a => a.type.isNone) = true := by
      simp only [axisReadBroken, ha] at h
      exact h
    have h3 := (mapM_type_none descs).mpr h2
    simp only [detectChannelAxis, ha, h3]

theorem detect_ok (nm : NodeMeta) (h : axisReadBroken nm = false) :
    ∃ ch, detectChannelAxis nm = .ok ch := by
  cases ha : nm.axes with
  | none =>
    simp only [axisReadBroken, ha] at h
    exact absurd h (by simp)
  | some descs =>
    have h2 : descs.any (fun a => a.type.isNone) = false := by
      simp only [axisReadBroken, ha] at h
      exact h
    cases hm : descs.mapM (fun a => a.type) with
    | none =>
      rw [(mapM_type_none descs).mp hm] at h2
      exact absurd h2 (by simp)
    | some ch_types =>
      exact ⟨ch_types.findIdx? (fun t => t == "channel"),
        by simp only [detectChannelAxis, ha, hm]⟩

theorem processNode_skip (node : Node) (h : node.hasData = false) :
    processNode node = ([.skipNonData], .skipped) := by
  cases hd : node.data with
  | none => simp [processNode, hd]
  | some ls =>
    cases ls with
    | nil => simp [processNode, hd]
    | cons a as =>
      exfalso
      simp [Node.hasData, hd] at h

theorem processNode_brokenAxes (node : Node) (h1 : node.hasData = true)
    (h2 : axisReadBroken node.metadata = true) :
    processNode node = ([.transforming, .nodeMetadata, .errorReadingAxes], .raised) := by
  cases hd : node.data with
  | none =>
    simp [Node.hasData, hd] at h1
  | some ls =>
    cases ls with
    | nil => simp [Node.hasData, hd] at h1
    | cons a as =>
      have h3 : ¬ (a :: as).length < 1 := by simp
      simp [processNode, hd, h3, detect_broken _ h2]

/-- The layer-data tuple a node contributes, if any. -/
def ldOf (n : Node) : Option LayerData :=
  match (processNode n).2 with
  | .emitted ld => some ld
  | _ => none

theorem processNode_data_not_skipped (node : Node) (h : node.hasData = true) :
    (processNode node).2 ≠ NodeRes.skipped := by
  cases hd : node.data with
  | none =>
    simp [Node.hasData, hd] at h
  | some ls =>
    cases ls with
    | nil => simp [Node.hasData, hd] at h
    | cons a as =>
      have h3 : ¬ (a :: as).length < 1 := by simp
      simp only [processNode, hd, h3, if_false]
      cases hdet : detectChannelAxis node.metadata with
      | error e => simp
      | ok ch =>
        rcases hb : processBody node (a :: as) ch with _ | ld <;> simp [hb]

theorem transformGo_ok_spec :
    ∀ (nodes : List Node) (logs : List LogEvent) (res : List LayerData)
      (lg : List LogEvent) (rs : List LayerData),
      transformGo nodes logs res = (lg, .ok rs) →
      rs = res ++ nodes.filterMap ldOf ∧
      lg = logs ++ (nodes.map (fun n => (processNode n).1)).flatten ∧
      ∀ n ∈ nodes, (processNode n).2 ≠ NodeRes.raised := by
  intro nodes
  induction nodes with
  | nil =>
    intro logs res lg rs h
    simp [transformGo] at h
    simp [h.1, h.2]
  | cons node rest ih =>
    intro logs res lg rs h
    unfold transformGo at h
    cases hpn : processNode node with
    | mk nlogs nres =>
      rw [hpn] at h
      cases nres with
      | skipped =>
        obtain ⟨h1, h2, h3⟩ := ih _ _ _ _ h
        refine ⟨?_, ?_, ?_⟩
        · rw [h1]
          simp [ldOf, hpn]
        · rw [h2]
          simp [hpn]
        · intro n hn
          rcases List.mem_cons.mp hn with hn2 | hn2
          · subst hn2; simp [hpn]
          · exact h3 n hn2
      | emitted ld =>
        obtain ⟨h1, h2, h3⟩ := ih _ _ _ _ h
        refine ⟨?_, ?_, ?_⟩
        · rw [h1]
          simp [ldOf, hpn]
        · rw [h2]
          simp [hpn]
        · intro n hn
          rcases List.mem_cons.mp hn with hn2 | hn2
          · subst hn2; simp [hpn]
          · exact h3 n hn2
      | raised => simp at h

theorem transformGo_cons (x : Node) (rest : List Node) (logs : List LogEvent)
    (res : List LayerData) :
    transformGo (x :: rest) logs res
      = match processNode x with
        | (nlogs, .skipped) => transformGo rest (logs ++ nlogs) res
        | (nlogs, .emitted ld) => transformGo rest (logs ++ nlogs) (res ++ [ld])
        | (nlogs, .raised) => (logs ++ nlogs, .error ()) := rfl

theorem transformGo_append (xs ys : List Node) :
    ∀ (logs : List LogEvent) (res : List LayerData),
      transformGo (xs ++ ys) logs res
        = match transformGo xs logs res with
          | (lg, .ok rs) => transformGo ys lg rs
          | (lg, .error e) => (lg, .error e) := by
  induction xs with
  | nil => intro logs res; simp [transformGo]
  | cons x xst ih =>
    intro logs res
    rw [List.cons_append, transformGo_cons, transformGo_cons]
    cases hpn : processNode x with
    | mk nlogs nres =>
      cases nres with
      | skipped => exact ih (logs ++ nlogs) res
      | emitted ld => exact ih (logs ++ nlogs) (res ++ [ld])
      | raised => rfl

theorem transform_append_raise (pre : List Node) (node : Node) (post : List Node)
    (lg : List LogEvent) (rs : List LayerData)
    (hpre : transform pre = (lg, .ok rs))
    (hn : (processNode node).2 = NodeRes.raised) :
    transform (pre ++ node :: post) = (lg ++ (processNode node).1, .error ()) := by
  unfold transform at hpre ⊢
  rw [transformGo_append, hpre]
  unfold transformGo
  cases hpn : processNode node with
  | mk nlogs nres =>
    rw [hpn] at hn
    simp at hn
    subst hn
    simp [hpn]

/- Settled claims.  Each claim of the specification is stated over the
embedding above; concrete nodes used by witnesses and counterexamples
follow. -/

def l04 : List Transf := [⟨some [1, 1/5, 1/5], none⟩]

def nm4c : NodeMeta :=
  ⟨some [⟨some "c", none, some "channel"⟩, ⟨some "y", none, some "space"⟩,
         ⟨some "x", none, some "space"⟩],
   some [l04], [], none⟩

/-- Claim C4: geometry extraction outputs the scale/translation array of
the first coordinate-transformation level as a tuple, with the channel
entry removed when a channel axis index is given; absence of
coordinateTransformations, or of scale/translation inside it, yields an
absent output and raises no error. -/
theorem c4_geometry_extraction (nm : NodeMeta) (i : Nat) :
    (nm.coordinateTransformations = none →
      ∀ ch md, transform_scale nm md ch = some (nm, md)) ∧
    (∀ level0 rest, nm.coordinateTransformations = some (level0 :: rest) →
      (∀ t ∈ level0, ∀ s, t.scale = some s → i < s.length) →
      (∀ t ∈ level0, ∀ s, t.translation = some s → i < s.length) →
      ∃ md', transform_scale nm [] (some i)
          = some ({ nm with coordinateTransformations
                      := some (level0.map (popTransf i) :: rest) }, md') ∧
        aget? md' "scale" = (lastScale level0).map (fun s => FVal.vqtuple (s.eraseIdx i)) ∧
        aget? md' "translate" = (lastTransl level0).map (fun s => FVal.vqtuple (s.eraseIdx i))) ∧
    (∀ level0 rest, nm.coordinateTransformations = some (level0 :: rest) →
      ∃ md', transform_scale nm [] none = some (nm, md') ∧
        aget? md' "scale" = (lastScale level0).map FVal.vqtuple ∧
        aget? md' "translate" = (lastTransl level0).map FVal.vqtuple) := by
  refine ⟨?_, ?_, ?_⟩
  · intro h ch md
    simp [transform_scale, h]
  · intro level0 rest hct hs ht
    obtain ⟨md', hloop, hg1, hg2, _⟩ := scaleLoop_some_spec i level0 [] hs ht
    refine ⟨md', ?_, ?_, ?_⟩
    · simp [transform_scale, hct, hloop]
    · rw [hg1]
      simp [aget?]
    · rw [hg2]
      simp [aget?]
  · intro level0 rest hct
    obtain ⟨md', hloop, hg1, hg2, _⟩ := scaleLoop_none_spec level0 []
    refine ⟨md', ?_, ?_, ?_⟩
    · have heq : ({ nm with coordinateTransformations := some (level0 :: rest) } : NodeMeta) = nm := by
        obtain ⟨a, c, f, p⟩ := nm
        simp at hct
        simp [hct]
      rw [← heq]
      simp [transform_scale, hct, hloop]
    · rw [hg1]
      simp [aget?]
    · rw [hg2]
      simp [aget?]

def c4mdOut : MDict := [("scale", FVal.vqtuple [1/5, 1/5])]

/-- Claim C4 witness: the spec example, axes [channel, y, x] with the
channel at index 0 and scale [1, 0.2, 0.2], extracts the tuple
(0.2, 0.2). -/
theorem c4_geometry_extraction_witness :
    nm4c.coordinateTransformations = some (l04 :: []) ∧
    (∀ t ∈ l04, ∀ s, t.scale = some s → 0 < s.length) ∧
    (∀ t ∈ l04, ∀ s, t.translation = some s → 0 < s.length) ∧
    transform_scale nm4c [] (some 0)
      = some ({ nm4c with coordinateTransformations := some (l04.map (popTransf 0) :: []) }, c4mdOut) ∧
    aget? c4mdOut "scale" = some (.vqtuple [1/5, 1/5]) ∧
    aget? c4mdOut "translate" = none := by
  obtain ⟨md', h1, h2, h3⟩ :=
    (c4_geometry_extraction nm4c 0).2.1 l04 [] rfl (by decide) (by decide)
  have hmd : md' = c4mdOut := by
    have heq := h1.symm.trans
      (rfl : transform_scale nm4c [] (some 0)
        = some ({ nm4c with coordinateTransformations := some (l04.map (popTransf 0) :: []) }, c4mdOut))
    exact congrArg Prod.snd (Option.some.inj heq)
  subst hmd
  exact ⟨rfl, by decide, by decide, h1, h2, h3⟩

/-- Claim C3 counterexample: node metadata is not a read-only input; with
a channel axis at index 0 and scale [1, 0.2, 0.2], geometry extraction
pops the channel entry out of the node's own scale array in place, so the
node metadata differs afterwards. -/
theorem c3_node_metadata_mutated_counterexample :
    (transform_scale nm4c [] (some 0)).map (fun r => r.1.coordinateTransformations)
      = some (some [[(⟨some [1/5, 1/5], none⟩ : Transf)]]) ∧
    nm4c.coordinateTransformations = some [[(⟨some [1, 1/5, 1/5], none⟩ : Transf)]] ∧
    (some [[(⟨some [1/5, 1/5], none⟩ : Transf)]] : Option (List (List Transf)))
      ≠ some [[(⟨some [1, 1/5, 1/5], none⟩ : Transf)]] :=
  ⟨rfl, rfl, by simp⟩

/-- Claim C3, amended: node metadata is mutated in place by the pipeline:
geometry extraction with a channel axis removes the channel entry from the
first-level scale and translation arrays of the node metadata itself
(while without a channel axis it leaves the node metadata unchanged), a
truthy string name is replaced by a singleton list when the channel axis
is None, and colormap entries that are not Colormap objects are replaced
by constructed ones inside the node metadata. -/
theorem c3_node_metadata_mutation (nm : NodeMeta) (i : Nat) :
    (∀ md r, transform_scale nm md none = some r → r.1 = nm) ∧
    (∀ level0 rest, nm.coordinateTransformations = some (level0 :: rest) →
      (∀ t ∈ level0, ∀ s, t.scale = some s → i < s.length) →
      (∀ t ∈ level0, ∀ s, t.translation = some s → i < s.length) →
      ∃ md', transform_scale nm [] (some i)
          = some ({ nm with coordinateTransformations
                      := some (level0.map (popTransf i) :: rest) }, md')) ∧
    (∀ s, aget? nm.fields "name" = some (.vstr s) → s ≠ "" →
      nameWrap nm none = { nm with fields := aset nm.fields "name" (.vlist [.vstr s]) } ∧
      aget? (nameWrap nm none).fields "name" = some (.vlist [.vstr s])) ∧
    (∀ xs, aget? nm.fields "colormap" = some (.vlist xs) →
      colormapShim nm
        = some { nm with fields := aset nm.fields "colormap" (.vlist (xs.map convertColormapEntry)) }) := by
  refine ⟨?_, ?_, ?_, ?_⟩
  · intro md r h
    cases hct : nm.coordinateTransformations with
    | none =>
      simp [transform_scale, hct] at h
      rw [← h]
    | some cts =>
      cases cts with
      | nil => simp [transform_scale, hct] at h
      | cons l0 rest =>
        obtain ⟨md', hloop, _, _, _⟩ := scaleLoop_none_spec l0 md
        simp [transform_scale, hct, hloop] at h
        have heq : ({ nm with coordinateTransformations := some (l0 :: rest) } : NodeMeta) = nm := by
          obtain ⟨a, c, f, p⟩ := nm
          simp at hct
          simp [hct]
        rw [← h, heq]
  · intro level0 rest hct hs ht
    obtain ⟨md', hloop, _, _, _⟩ := scaleLoop_some_spec i level0 [] hs ht
    exact ⟨md', by simp [transform_scale, hct, hloop]⟩
  · intro s hname hs
    have htr : FVal.truthy (.vstr s) = true := by
      simp [FVal.truthy, hs]
    constructor
    · simp [nameWrap, hname, htr]
    · simp [nameWrap, hname, htr, aget?_aset_self]
  · intro xs hcm
    simp [colormapShim, hcm]

def nm3w : NodeMeta :=
  ⟨some [⟨some "y", none, some "space"⟩],
   some [[⟨some [2, 3], some [4, 5]⟩]],
   [("name", .vstr "n"), ("colormap", .vlist [.vstr "gray"])], none⟩

/-- Claim C3 witness: the amended mutation facts at a concrete node. -/
theorem c3_node_metadata_mutation_witness :
    transform_scale nm3w [] none
      = some ((nm3w, [("scale", FVal.vqtuple [2, 3]), ("translate", FVal.vqtuple [4, 5])])) ∧
    ((nm3w, ([("scale", FVal.vqtuple [2, 3]), ("translate", FVal.vqtuple [4, 5])] : MDict)).1 = nm3w) ∧
    (transform_scale nm3w [] (some 0)).map (fun r => r.1)
      = some { nm3w with coordinateTransformations := some ([(⟨some [2, 3], some [4, 5]⟩ : Transf)].map (popTransf 0) :: []) } ∧
    (nameWrap nm3w none
       = { nm3w with fields := aset nm3w.fields "name" (.vlist [.vstr "n"]) } ∧
     aget? (nameWrap nm3w none).fields "name" = some (.vlist [.vstr "n"])) ∧
    colormapShim nm3w
      = some { nm3w with fields := aset nm3w.fields "colormap" (.vlist ([FVal.vstr "gray"].map convertColormapEntry)) } := by
  have hm := c3_node_metadata_mutation nm3w 0
  obtain ⟨md', hmd⟩ := hm.2.1 [⟨some [2, 3], some [4, 5]⟩] [] rfl (by decide) (by decide)
  refine ⟨rfl,
    hm.1 [] (nm3w, [("scale", FVal.vqtuple [2, 3]), ("translate", FVal.vqtuple [4, 5])]) rfl,
    ?_, hm.2.2.1 "n" rfl (by decide), hm.2.2.2 [.vstr "gray"] rfl⟩
  rw [hmd]
  rfl

/-- The set of spatial unit names of an axis list, as computed inside
get_axes (first-occurrence-free deduplicated list standing for the Python
set). -/
def spaceUnitNames (axes : List Axis) : List String :=
  ((axes.filter Axis.isSpace).map Axis.get_unit_name).dedup

/-- The canonical spatial unit carried by an axis (NONE on time axes,
which the space filter never passes). -/
def Axis.spaceUnitOf : Axis → SpaceUnits
  | .space a => a.unit
  | .time _ => .NONE

/-- The distinct canonical spatial units of an axis list. -/
def distinctSpaceUnits (axes : List Axis) : List SpaceUnits :=
  ((axes.filter Axis.isSpace).map Axis.spaceUnitOf).dedup

theorem toName_inj : Function.Injective SpaceUnits.toName := by
  intro a b h
  cases a <;> cases b <;> simp_all [SpaceUnits.toName]

theorem spaceUnitNames_eq (axes : List Axis) :
    spaceUnitNames axes = (distinctSpaceUnits axes).map SpaceUnits.toName := by
  unfold spaceUnitNames distinctSpaceUnits
  rw [← List.dedup_map_of_injective toName_inj, List.map_map]
  congr 1
  apply List.map_congr_left
  intro ax hax
  have hsp := (List.mem_filter.mp hax).2
  cases ax with
  | space a => rfl
  | time a => simp [Axis.isSpace] at hsp

/-- Claim C5: when the classified Space axes carry two or more distinct
canonical units, get_axes returns every Space axis with unit NONE together
with a warning naming the conflicting unit-name set, and it does not
raise; when the units do not conflict each axis keeps its resolved
unit. -/
theorem c5_unit_reconciliation (nm : NodeMeta) (descs : List AxisDesc)
    (opts : List (Option Axis)) (h1 : nm.axes = some descs)
    (h2 : descs.mapM get_axis = some opts) :
    (∃ r, get_axes nm = some r) ∧
    (2 ≤ (distinctSpaceUnits opts.reduceOption).length →
      get_axes nm = some (opts.reduceOption.map Axis.forceNoneUnit,
        some (spaceUnitNames opts.reduceOption)) ∧
      ∀ ax ∈ opts.reduceOption.map Axis.forceNoneUnit, ax.isSpace = true →
        ∃ nam, ax = Axis.space ⟨nam, SpaceUnits.NONE⟩) ∧
    ((distinctSpaceUnits opts.reduceOption).length ≤ 1 →
      get_axes nm = some (opts.reduceOption, none)) := by
  have hlen : (spaceUnitNames opts.reduceOption).length
      = (distinctSpaceUnits opts.reduceOption).length := by
    rw [spaceUnitNames_eq, List.length_map]
  have hga : get_axes nm
      = if (spaceUnitNames opts.reduceOption).length > 1
        then some (opts.reduceOption.map Axis.forceNoneUnit,
          some (spaceUnitNames opts.reduceOption))
        else some (opts.reduceOption, none) := by
    unfold get_axes
    rw [h1]
    simp only [Option.bind_eq_bind, Option.some_bind]
    rw [h2]
    simp only [Option.bind_eq_bind, Option.some_bind]
    simp [spaceUnitNames]
  refine ⟨?_, ?_, ?_⟩
  · rw [hga]
    by_cases h : (spaceUnitNames opts.reduceOption).length > 1 <;> simp [h]
  · intro hc
    have hgt : (spaceUnitNames opts.reduceOption).length > 1 := by omega
    refine ⟨by rw [hga, if_pos hgt], ?_⟩
    intro ax hax hsp
    obtain ⟨ax0, _, rfl⟩ := List.mem_map.mp hax
    cases ax0 with
    | space a => exact ⟨a.name, rfl⟩
    | time a => simp [Axis.forceNoneUnit, Axis.isSpace] at hsp
  · intro hc
    have hle : ¬ (spaceUnitNames opts.reduceOption).length > 1 := by omega
    rw [hga, if_neg hle]

def nm5wAxes : List AxisDesc :=
  [⟨some "y", some "micrometer", some "space"⟩, ⟨some "x", some "mm", none⟩]

def nm5w : NodeMeta := ⟨some nm5wAxes, none, [], none⟩

def opts5 : List (Option Axis) :=
  [some (.space ⟨"y", .MICROMETER⟩), some (.space ⟨"x", .MILLIMETER⟩)]

/-- Claim C5 witness: micrometer against millimeter (one descriptor even
relying on the absent-type-means-space rule) reconciles to NONE units with
the conflicting set in the warning. -/
theorem c5_unit_reconciliation_witness :
    nm5w.axes = some nm5wAxes ∧
    nm5wAxes.mapM get_axis = some opts5 ∧
    2 ≤ (distinctSpaceUnits opts5.reduceOption).length ∧
    get_axes nm5w = some (opts5.reduceOption.map Axis.forceNoneUnit,
        some (spaceUnitNames opts5.reduceOption)) ∧
    opts5.reduceOption.map Axis.forceNoneUnit
      = [.space ⟨"y", .NONE⟩, .space ⟨"x", .NONE⟩] ∧
    spaceUnitNames opts5.reduceOption = ["micrometer", "millimeter"] := by
  have h := (c5_unit_reconciliation nm5w nm5wAxes opts5 rfl rfl).2.1 (by decide)
  exact ⟨rfl, rfl, by decide, h.1, rfl, rfl⟩

/-- Claim C6 counterexample: a per-label property named index collides
with the synthetic index column; the pivoted output interleaves label
identifiers with property values, so neither the index column nor the
per-property column is what the claim requires. -/
theorem c6_properties_pivot_counterexample :
    transform_properties (some c6ex) = some [("index", [FVal.vint 1, FVal.vint 5])] ∧
    ¬ (aget? [("index", [FVal.vint 1, FVal.vint 5])] "index"
         = some (c6ex.map (fun lp => FVal.vint lp.1)) ∧
       ∀ k ∈ unionKeys c6ex,
         aget? [("index", [FVal.vint 1, FVal.vint 5])] k
           = some (c6ex.map (fun lp => pget lp.2 k))) := by
  refine ⟨rfl, ?_⟩
  rintro ⟨hA, _⟩
  have hv : aget? [("index", [FVal.vint 1, FVal.vint 5])] "index"
      = some [FVal.vint 1, FVal.vint 5] := rfl
  rw [hv] at hA
  simp [c6ex] at hA

def c6wOut : List (String × List FVal) :=
  [("roiId", [FVal.vint 10, FVal.vint 11]),
   ("shapeId", [FVal.vnone, FVal.vint 99]),
   ("index", [FVal.vint 1, FVal.vint 2])]

/-- Claim C6 witness: the spec's own pivot example. -/
theorem c6_properties_pivot_witness :
    (∀ lp ∈ c6w, ∀ kv ∈ lp.2, kv.1 ≠ "index") ∧
    transform_properties none = none ∧
    transform_properties (some c6w) = some c6wOut ∧
    c6wOut.map (fun p => p.1) = unionKeys c6w ++ ["index"] ∧
    aget? c6wOut "roiId" = some [FVal.vint 10, FVal.vint 11] ∧
    aget? c6wOut "shapeId" = some [FVal.vnone, FVal.vint 99] ∧
    aget? c6wOut "index" = some [FVal.vint 1, FVal.vint 2] := by
  obtain ⟨h0, out, hout, hkeys, hmem, hcols, hnone, hidx⟩ := c6_pivot_amended c6w (by decide)
  have hoc : out = c6wOut := Option.some.inj (hout.symm.trans rfl)
  subst hoc
  exact ⟨by decide, h0, hout, hkeys, (hcols "roiId" (by decide)).1,
    (hcols "shapeId" (by decide)).1, hidx⟩

/-- Claim C7: when reading the axis schema of a node with data fails, the
failure is logged at error severity and re-raised, aborting the run: the
reader returns an error and no result list. -/
theorem c7_axis_error_fatal (pre : List Node) (node : Node) (post : List Node)
    (lg : List LogEvent) (rs : List LayerData)
    (hpre : transform pre = (lg, .ok rs))
    (hdata : node.hasData = true)
    (hbroken : axisReadBroken node.metadata = true) :
    transform (pre ++ node :: post)
      = (lg ++ [.transforming, .nodeMetadata, .errorReadingAxes], Except.error ()) ∧
    LogEvent.errorReadingAxes ∈ (transform (pre ++ node :: post)).1 ∧
    LogEvent.errorReadingAxes.level = LogLevel.error ∧
    ∀ rs' : List LayerData, (transform (pre ++ node :: post)).2 ≠ Except.ok rs' := by
  have hpn := processNode_brokenAxes node hdata hbroken
  have habort := transform_append_raise pre node post lg rs hpre (by rw [hpn])
  rw [hpn] at habort
  refine ⟨habort, ?_, rfl, ?_⟩
  · rw [habort]
    simp
  · intro rs'
    rw [habort]
    simp

def c7node : Node := ⟨some [⟨[4, 4]⟩], ⟨none, none, [], none⟩, false⟩

/-- Claim C7 witness: a data node whose metadata lacks the axes key aborts
the run with an error-severity log entry. -/
theorem c7_axis_error_fatal_witness :
    transform ([] : List Node) = ([], .ok []) ∧
    c7node.hasData = true ∧
    axisReadBroken c7node.metadata = true ∧
    transform ([] ++ c7node :: [])
      = ([] ++ [.transforming, .nodeMetadata, .errorReadingAxes], Except.error ()) ∧
    LogEvent.errorReadingAxes ∈ (transform ([] ++ c7node :: [])).1 ∧
    LogEvent.errorReadingAxes.level = LogLevel.error ∧
    (transform ([] ++ c7node :: [])).2 ≠ Except.ok [] := by
  have h := c7_axis_error_fatal [] c7node [] [] [] rfl rfl rfl
  exact ⟨rfl, rfl, rfl, h.1, h.2.1, h.2.2.1, h.2.2.2 []⟩

/-- Claim C10: an axis descriptor without a type key is fatal to the
pipeline (channel-axis detection raises and the run aborts) even though
the axis classifier get_axis happily treats an absent type as a Space
axis. -/
theorem c10_missing_type_fatal (pre : List Node) (node : Node) (post : List Node)
    (lg : List LogEvent) (rs : List LayerData) (descs : List AxisDesc) (d : AxisDesc)
    (hpre : transform pre = (lg, .ok rs))
    (hdata : node.hasData = true)
    (haxes : node.metadata.axes = some descs)
    (hd : d ∈ descs) (htype : d.type = none) :
    (transform (pre ++ node :: post)).2 = Except.error () ∧
    (∀ rs' : List LayerData, (transform (pre ++ node :: post)).2 ≠ Except.ok rs') ∧
    (∀ nam, d.name = some nam →
      get_axis d = some (some (Axis.space ⟨nam, SpaceUnits.from_name (d.unit.getD "none")⟩))) := by
  have hbroken : axisReadBroken node.metadata = true := by
    unfold axisReadBroken
    rw [haxes]
    rw [List.any_eq_true]
    exact ⟨d, hd, by simp [htype]⟩
  have hpn := processNode_brokenAxes node hdata hbroken
  have habort := transform_append_raise pre node post lg rs hpre (by rw [hpn])
  refine ⟨by rw [habort], ?_, ?_⟩
  · intro rs'
    rw [habort]
    simp
  · intro nam hnam
    obtain ⟨dn, du, dt⟩ := d
    simp at hnam htype
    subst hnam
    subst htype
    rfl

def c10node : Node :=
  ⟨some [⟨[4, 4]⟩],
   ⟨some [⟨some "y", none, none⟩, ⟨some "x", none, some "space"⟩], none, [], none⟩,
   false⟩

/-- Claim C10 witness: descriptor y has a name but no type; the run aborts
while get_axis classifies it as a Space axis. -/
theorem c10_missing_type_fatal_witness :
    transform ([] : List Node) = ([], .ok []) ∧
    c10node.hasData = true ∧
    c10node.metadata.axes
      = some [⟨some "y", none, none⟩, ⟨some "x", none, some "space"⟩] ∧
    (⟨some "y", none, none⟩ : AxisDesc)
      ∈ [(⟨some "y", none, none⟩ : AxisDesc), ⟨some "x", none, some "space"⟩] ∧
    (⟨some "y", none, none⟩ : AxisDesc).type = none ∧
    (transform ([] ++ c10node :: [])).2 = Except.error () ∧
    get_axis ⟨some "y", none, none⟩
      = some (some (Axis.space ⟨"y", SpaceUnits.from_name "none"⟩)) := by
  have h := c10_missing_type_fatal [] c10node [] [] []
    [⟨some "y", none, none⟩, ⟨some "x", none, some "space"⟩]
    ⟨some "y", none, none⟩ rfl rfl rfl (by simp) rfl
  exact ⟨rfl, rfl, rfl, by simp, rfl, h.1, h.2.2 "y" rfl⟩

/-- Claim C9: on a successful run the reader yields exactly one layer-data
tuple per node with present, non-empty data, in node order; a node without
data contributes nothing and is logged at debug severity, not raised. -/
theorem c9_driver_order (nodes : List Node) (lg : List LogEvent) (rs : List LayerData)
    (h : transform nodes = (lg, .ok rs)) :
    rs = nodes.filterMap ldOf ∧
    lg = (nodes.map (fun n => (processNode n).1)).flatten ∧
    (∀ n : Node, n.hasData = false →
      ldOf n = none ∧ processNode n = ([.skipNonData], .skipped) ∧
      LogEvent.skipNonData.level = LogLevel.debug) ∧
    (∀ n ∈ nodes, n.hasData = true → ∃ ld, ldOf n = some ld) := by
  obtain ⟨h1, h2, h3⟩ := transformGo_ok_spec nodes [] [] lg rs h
  refine ⟨by simpa using h1, by simpa using h2, ?_, ?_⟩
  · intro n hn
    have hskip := processNode_skip n hn
    exact ⟨by simp [ldOf, hskip], hskip, rfl⟩
  · intro n hn hdata
    have hnr := h3 n hn
    have hns := processNode_data_not_skipped n hdata
    unfold ldOf
    cases hpn : (processNode n).2 with
    | skipped => exact absurd hpn hns
    | emitted ld => exact ⟨ld, rfl⟩
    | raised => exact absurd hpn hnr

def c9nodeA : Node :=
  ⟨some [⟨[3, 3]⟩],
   ⟨some [⟨some "y", none, some "space"⟩, ⟨some "x", none, some "space"⟩], none, [], none⟩,
   false⟩

def c9nodeB : Node := ⟨none, ⟨none, none, [], none⟩, false⟩

def c9axes : List Axis := [.space ⟨"y", .NONE⟩, .space ⟨"x", .NONE⟩]

def c9out : LayerData :=
  (.single ⟨[3, 3]⟩,
   [("metadata", .vdict [(EXTRA_METADATA_KEY,
      .vextras ⟨c9axes, ⟨c9axes, none, none, none⟩⟩)])],
   "image")

def c9logs : List LogEvent :=
  [.transforming, .nodeMetadata, .transformed, .skipNonData]

/-- Claim C9 witness: a data node followed by an empty node produce
exactly one tuple and a debug skip log. -/
theorem c9_driver_order_witness :
    transform [c9nodeA, c9nodeB] = (c9logs, .ok [c9out]) ∧
    [c9out] = [c9nodeA, c9nodeB].filterMap ldOf ∧
    c9logs = ([c9nodeA, c9nodeB].map (fun n => (processNode n).1)).flatten ∧
    c9nodeB.hasData = false ∧ ldOf c9nodeB = none ∧
    processNode c9nodeB = ([.skipNonData], .skipped) ∧
    LogEvent.skipNonData.level = LogLevel.debug := by
  have h := c9_driver_order [c9nodeA, c9nodeB] c9logs [c9out] rfl
  exact ⟨rfl, h.1, h.2.1, rfl, (h.2.2.1 c9nodeB rfl).1, (h.2.2.1 c9nodeB rfl).2.1, rfl⟩

/-- A fold that, for each key in order, either writes the chosen value at
that key or leaves the accumulator alone; both display-field copy loops
are instances of this shape. -/
def keyedCopy (choice : String → Option FVal) (keys : List String) (base : MDict) :
    MDict :=
  keys.foldl (fun acc x =>
    match choice x with
    | some v => aset acc x v
    | none => acc) base

theorem copyFieldsFirst_eq (nmFields base : MDict) :
    copyFieldsFirst nmFields base
      = keyedCopy (fun x => (aget? nmFields x).bind FVal.sub0) METADATA_KEYS base := by
  unfold copyFieldsFirst keyedCopy
  refine List.foldl_ext _ _ base ?_
  intro acc x _
  simp only []
  cases h : aget? nmFields x with
  | none => rfl
  | some v => rfl

theorem copyFieldsVerbatim_eq (nmFields base : MDict) :
    copyFieldsVerbatim nmFields base
      = keyedCopy (fun x => aget? nmFields x) METADATA_KEYS base := by
  unfold copyFieldsVerbatim keyedCopy
  refine List.foldl_ext _ _ base ?_
  intro acc x _
  simp only []

theorem keyedCopy_get_notmem (choice : String → Option FVal) (keys : List String)
    (base : MDict) (x : String) (hx : x ∉ keys) :
    aget? (keyedCopy choice keys base) x = aget? base x := by
  induction keys generalizing base with
  | nil => rfl
  | cons k rest ih =>
    rw [keyedCopy, List.foldl_cons]
    have hxk : x ≠ k := fun h => hx (by simp [h])
    have hxr : x ∉ rest := fun h => hx (by simp [h])
    cases h : choice k with
    | none => exact ih base hxr
    | some v =>
      rw [show List.foldl _ (aset base k v) rest = keyedCopy choice rest (aset base k v) from rfl]
      rw [ih _ hxr, aget?_aset_ne _ _ _ _ hxk]

theorem keyedCopy_get_mem (choice : String → Option FVal) (keys : List String)
    (base : MDict) (x : String) (hx : x ∈ keys) (hnd : keys.Nodup) :
    aget? (keyedCopy choice keys base) x
      = match choice x with
        | some v => some v
        | none => aget? base x := by
  induction keys generalizing base with
  | nil => simp at hx
  | cons k rest ih =>
    rw [keyedCopy, List.foldl_cons]
    by_cases hxk : x = k
    · subst hxk
      have hxr : x ∉ rest := (List.nodup_cons.mp hnd).1
      cases h : choice x with
      | none =>
        rw [show List.foldl _ base rest = keyedCopy choice rest base from rfl]
        exact keyedCopy_get_notmem choice rest base x hxr
      | some v =>
        rw [show List.foldl _ (aset base x v) rest = keyedCopy choice rest (aset base x v) from rfl]
        rw [keyedCopy_get_notmem choice rest _ x hxr, aget?_aset_self]
    · have hxr : x ∈ rest := by
        rcases List.mem_cons.mp hx with h | h
        · exact absurd h hxk
        · exact h
      cases h : choice k with
      | none => exact ih base hxr (List.Nodup.of_cons hnd)
      | some v =>
        rw [show List.foldl _ (aset base k v) rest = keyedCopy choice rest (aset base k v) from rfl]
        rw [ih _ hxr (List.Nodup.of_cons hnd), aget?_aset_ne _ _ _ _ hxk]

/-- Claim C8, amended: in the single-channel image branch each present
recognized display field is copied as its subscript-zero value (the head
when it holds a list), with a failing subscript leaving the field silently
omitted; label nodes instead copy every present recognized field
verbatim, with no first-element extraction. -/
theorem c8_field_copy (fields base : MDict) (x : String) (hx : x ∈ METADATA_KEYS) :
    (∀ v, aget? fields x = some v →
      aget? (copyFieldsFirst fields base) x
        = match v.sub0 with
          | some v0 => some v0
          | none => aget? base x) ∧
    (∀ h t, FVal.sub0 (FVal.vlist (h :: t)) = some h) ∧
    (aget? fields x = none →
      aget? (copyFieldsFirst fields base) x = aget? base x) ∧
    (∀ v, aget? fields x = some v →
      aget? (copyFieldsVerbatim fields base) x = some v) := by
  have hnd : METADATA_KEYS.Nodup := by decide
  refine ⟨?_, fun h t => rfl, ?_, ?_⟩
  · intro v hv
    rw [copyFieldsFirst_eq, keyedCopy_get_mem _ _ _ _ hx hnd, hv]
    rfl
  · intro hv
    rw [copyFieldsFirst_eq, keyedCopy_get_mem _ _ _ _ hx hnd, hv]
    rfl
  · intro v hv
    rw [copyFieldsVerbatim_eq, keyedCopy_get_mem _ _ _ _ hx hnd, hv]

def c8fields : MDict := [("visible", .vlist [.vbool true, .vbool false])]

/-- Claim C8 witness: a two-element visible list copies its head in the
single-channel image branch, an absent field is left out, and the labels
branch copies the whole list. -/
theorem c8_field_copy_witness :
    ("visible" ∈ METADATA_KEYS) ∧
    aget? c8fields "visible" = some (.vlist [.vbool true, .vbool false]) ∧
    aget? (copyFieldsFirst c8fields []) "visible" = some (.vbool true) ∧
    FVal.sub0 (FVal.vlist [.vbool true, .vbool false]) = some (.vbool true) ∧
    aget? (copyFieldsFirst [("color", .vbool true)] []) "visible" = aget? ([] : MDict) "visible" ∧
    aget? (copyFieldsVerbatim c8fields []) "visible" = some (.vlist [.vbool true, .vbool false]) := by
  have h1 := (c8_field_copy c8fields [] "visible" (by decide)).1
    (.vlist [.vbool true, .vbool false]) rfl
  have h2 := (c8_field_copy c8fields [] "visible" (by decide)).2.1 (FVal.vbool true) [.vbool false]
  have h3 := (c8_field_copy [("color", .vbool true)] [] "visible" (by decide)).2.2.1 rfl
  have h4 := (c8_field_copy c8fields [] "visible" (by decide)).2.2.2
    (.vlist [.vbool true, .vbool false]) rfl
  exact ⟨by decide, rfl, h1, h2, h3, h4⟩

def c8node : Node :=
  ⟨some [⟨[5, 5]⟩],
   ⟨some [⟨some "y", none, some "space"⟩, ⟨some "x", none, some "space"⟩],
    none, [("visible", .vlist [.vbool true])], none⟩,
   true⟩

def c8axes : List Axis := [.space ⟨"y", .NONE⟩, .space ⟨"x", .NONE⟩]

def c8outMD : MDict :=
  [("visible", .vlist [.vbool true]),
   ("metadata", .vdict [(EXTRA_METADATA_KEY,
      .vextras (make_extras [("visible", .vlist [.vbool true])] c8axes .vnone))])]

/-- Claim C8 counterexample: a label node with a single-element visible
list keeps the whole list in its output metadata, not its first element,
so the claim's first-element rule fails on label nodes. -/
theorem c8_label_copy_counterexample :
    (processNode c8node).2 = NodeRes.emitted (.single ⟨[5, 5]⟩, c8outMD, "labels") ∧
    aget? c8outMD "visible" = some (.vlist [.vbool true]) ∧
    (some (FVal.vlist [.vbool true]) ≠ some (FVal.vbool true)) :=
  ⟨rfl, rfl, by simp⟩

def c1node : Node :=
  ⟨some [⟨[2, 4]⟩],
   ⟨some [⟨some "c", none, some "channel"⟩, ⟨some "x", none, some "space"⟩],
    none, [("name", .vlist [.vstr "a", .vstr "b"])], none⟩,
   false⟩

def c1axes : List Axis := [.space ⟨"x", .NONE⟩]

def c1extrasB : ExtraMetadata := ⟨c1axes, ⟨c1axes, some "b", none, none⟩⟩

def c1chan : FVal := .vdict [(EXTRA_METADATA_KEY, .vextras c1extrasB)]

def c1outMD : MDict :=
  [("channel_axis", .vint 0), ("name", .vlist [.vstr "a", .vstr "b"]),
   ("metadata", .vlist [c1chan, c1chan])]

/-- Claim C1, evaluation at the failing input: a two-channel image node
with names a and b and no per-channel metadata list ends with both
per-channel mappings equal to the one shared dictionary, whose reserved
key holds the ExtraMetadata of the last channel (name b); the claim would
require channel 0 to carry name a. -/
theorem c1_per_channel_extras_bug :
    (processNode c1node).2 = NodeRes.emitted (.single ⟨[2, 4]⟩, c1outMD, "image") ∧
    aget? c1outMD "name" = some (.vlist [.vstr "a", .vstr "b"]) ∧
    aget? c1outMD "metadata" = some (.vlist [c1chan, c1chan]) ∧
    aget? [(EXTRA_METADATA_KEY, FVal.vextras c1extrasB)] EXTRA_METADATA_KEY
      = some (.vextras c1extrasB) ∧
    c1extrasB.original.name = some "b" ∧
    (some "b" : Option String) ≠ some "a" :=
  ⟨rfl, rfl, rfl, rfl, rfl, by simp⟩

def c2md : MDict := [("name", FVal.vstr "ch")]

def c2axes : List Axis := [.space ⟨"x", .NONE⟩]

def c2extras : ExtraMetadata := ⟨c2axes, ⟨c2axes, some "ch", none, none⟩⟩

def c2d : FVal := .vdict [(EXTRA_METADATA_KEY, .vextras c2extras)]

/-- Claim C2, evaluation at the failing input: broadcasting a scalar
metadata mapping over three channels yields one shared dictionary, not
three independent deep copies; a write through channel 0 is visible when
reading channel 1. -/
theorem c2_metadata_broadcast_aliasing_bug :
    multiChannelExtras (.single ⟨[3, 4]⟩) 0 c2axes c2md
      = some ([("name", .vstr "ch"), ("metadata", .vlist [c2d, c2d, c2d])],
              ChannelMeta.shared c2d 3) ∧
    (ChannelMeta.shared c2d 3).read? 0 = some c2d ∧
    (ChannelMeta.shared c2d 3).read? 1 = some c2d ∧
    ((ChannelMeta.shared c2d 3).writeAt 0 "probe" (.vint 7)).bind (fun cm => cm.read? 1)
      = some (.vdict [(EXTRA_METADATA_KEY, .vextras c2extras), ("probe", .vint 7)]) ∧
    (some (FVal.vdict [(EXTRA_METADATA_KEY, .vextras c2extras), ("probe", .vint 7)])
      ≠ some c2d) := by
  refine ⟨rfl, rfl, rfl, rfl, ?_⟩
  simp [c2d]

end NapariMeta
